import Mathlib

/-!
Verification of the FeedMe update pipeline (`src/scripts/update-feeds.js`).

The development shallowly embeds the pure core of the script:
* `mergeFeedItems` (lines 250-292) — merging a previous snapshot's items with
  a fresh fetch, JS `Map` modelled as an association list with JS `Map.set`
  replacement semantics, and JS string/`undefined` truthiness made explicit;
* the per-minute token-budget check of `updateFeed` (lines 300-304, 326-345);
* the summary-attachment loop of `updateFeed` (lines 322-354), with the
  terminal outcome of the retried remote call abstracted as an oracle;
* `updateAllFeeds` / `main` (lines 377-406) as a per-source result fold and
  an exit-code function;
* `loadFeedData` (lines 111-125), with the filesystem and `JSON.parse`
  abstracted as explicit inputs.

The retry wrapper itself (`p-retry`) is a third-party library that is not part
of the repository, so it is modelled from the spec (section 4.3).
-/

set_option autoImplicit false

namespace FeedMe

/-- A feed enclosure, as serialised by `fetchRssFeed` (lines 227-231). -/
structure Enclosure where
  url : String
  mediaType : String
  deriving DecidableEq, Repr

/-- One feed entry, with the fields produced by `fetchRssFeed` (lines 216-224)
plus the optional `summary` attached later.  Absent JS fields (`undefined`)
are modelled with `Option`. -/
structure FeedItem where
  title : String
  link : String
  pubDate : String
  isoDate : String
  content : String
  contentSnippet : String
  creator : String
  enclosure : Option Enclosure
  summary : Option String
  deriving DecidableEq, Repr

/-- JS truthiness of a string: truthy iff non-empty. -/
def truthyStr (s : String) : Bool := !(s == "")

/-- JS truthiness of a possibly-`undefined` string (`undefined` and `""` are
falsy). -/
def truthyOptStr : Option String → Bool
  | none => false
  | some s => truthyStr s

/-- JS `a || b` on possibly-`undefined` strings, as used in
`existingItem?.summary || item.summary` (line 277). -/
def jsOrSummary (a b : Option String) : Option String :=
  if truthyOptStr a then a else b

/-- The JS `Map` of line 252, keyed by link. -/
abbrev ItemMap := List (String × FeedItem)

/-- JS `Map.get`. -/
def mapGet : ItemMap → String → Option FeedItem
  | [], _ => none
  | (k', v) :: rest, k => if k' = k then some v else mapGet rest k

/-- JS `Map.set`: replaces the binding when the key is present, otherwise
appends. -/
def mapSet : ItemMap → String → FeedItem → ItemMap
  | [], k, v => [(k, v)]
  | (k', v') :: rest, k, v =>
      if k' = k then (k, v) :: rest else (k', v') :: mapSet rest k v

/-- JS `Map.has`. -/
def mapHas (m : ItemMap) (k : String) : Bool := (mapGet m k).isSome

/-- The loop of lines 255-259: add every old item that has a (truthy) link to
the map. -/
def addOldItems : ItemMap → List FeedItem → ItemMap
  | m, [] => m
  | m, item :: rest =>
      addOldItems (if truthyStr item.link then mapSet m item.link item else m) rest

/-- The record built at lines 275-278: the fresh item's fields with `summary`
taken from the existing entry when that summary is truthy. -/
def serializeMerged (existing : Option FeedItem) (item : FeedItem) : FeedItem :=
  { item with summary := jsOrSummary (existing.bind FeedItem.summary) item.summary }

/-- The loop of lines 265-282: walk the fresh items, collect those not already
in the map into `newItemsForSummary`, and update the map with the merged
record. -/
def addNewItems : ItemMap → List FeedItem → List FeedItem → ItemMap × List FeedItem
  | m, acc, [] => (m, acc)
  | m, acc, item :: rest =>
      if truthyStr item.link then
        addNewItems (mapSet m item.link (serializeMerged (mapGet m item.link) item))
          (if (mapGet m item.link).isNone then acc ++ [item] else acc) rest
      else
        addNewItems m acc rest

/-- `mergeFeedItems` (lines 250-292). -/
def mergeFeedItems (oldItems newItems : List FeedItem) (maxItems : Nat) :
    List FeedItem × List FeedItem :=
  let itemsMap := (addNewItems (addOldItems [] oldItems) [] newItems).1
  let newItemsForSummary := (addNewItems (addOldItems [] oldItems) [] newItems).2
  let mergedItems :=
    ((newItems.filter fun item => truthyStr item.link && mapHas itemsMap item.link).map
      fun item => if truthyStr item.link then (mapGet itemsMap item.link).getD item else item).take
      maxItems
  (mergedItems, newItemsForSummary)

/-- Convenience constructor for items that only fix `link` and `summary`
(the other fields default to the empty values `fetchRssFeed` produces). -/
def mkItem (link : String) (summary : Option String) : FeedItem :=
  { title := "", link := link, pubDate := "", isoDate := "", content := "",
    contentSnippet := "", creator := "", enclosure := none, summary := summary }

example :
    mergeFeedItems [mkItem "a" (some "S")] [mkItem "a" none, mkItem "b" none] 10 =
      ([mkItem "a" (some "S"), mkItem "b" none], [mkItem "b" none]) := by decide

example :
    (mergeFeedItems [] [mkItem "x" none, mkItem "y" none] 1).1 = [mkItem "x" none] := by
  decide

/-! Basic lemmas about the JS `Map` model. -/

theorem mapGet_set_self (m : ItemMap) (k : String) (v : FeedItem) :
    mapGet (mapSet m k v) k = some v := by
  induction m with
  | nil => simp [mapSet, mapGet]
  | cons hd tl ih =>
      by_cases h : hd.1 = k
      · simp [mapSet, mapGet, h]
      · simp only [mapSet, mapGet, h, if_false]
        simpa [mapGet, h] using ih

theorem mapGet_set_ne (m : ItemMap) (k : String) (v : FeedItem) (k' : String)
    (h : k' ≠ k) : mapGet (mapSet m k v) k' = mapGet m k' := by
  have hne : ¬ k = k' := Ne.symm h
  induction m with
  | nil => simp [mapSet, mapGet, hne]
  | cons hd tl ih =>
      obtain ⟨k1, v1⟩ := hd
      by_cases hk : k1 = k
      · subst hk
        simp [mapSet, mapGet, hne]
      · by_cases hk' : k1 = k'
        · simp [mapSet, mapGet, hk, hk', h]
        · simp [mapSet, mapGet, hk, hk', ih]

theorem mapHas_set (m : ItemMap) (k : String) (v : FeedItem) (k' : String)
    (h : mapHas m k' = true) : mapHas (mapSet m k v) k' = true := by
  by_cases hk : k' = k
  · subst hk
    simp [mapHas, mapGet_set_self]
  · simpa [mapHas, mapGet_set_ne m k v k' hk] using h

/-- Every value stored in the map sits under its own link as key. -/
def MapWF (m : ItemMap) : Prop :=
  ∀ k v, mapGet m k = some v → v.link = k

theorem mapWF_nil : MapWF [] := by
  intro k v h
  simp [mapGet] at h

theorem mapWF_set {m : ItemMap} {k : String} {v : FeedItem}
    (hm : MapWF m) (hv : v.link = k) : MapWF (mapSet m k v) := by
  intro k' w h
  by_cases hk : k' = k
  · subst hk
    rw [mapGet_set_self] at h
    cases h
    exact hv
  · rw [mapGet_set_ne m k v k' hk] at h
    exact hm k' w h

theorem serializeMerged_link (existing : Option FeedItem) (item : FeedItem) :
    (serializeMerged existing item).link = item.link := rfl

theorem mapWF_addOldItems (olds : List FeedItem) :
    ∀ m : ItemMap, MapWF m → MapWF (addOldItems m olds) := by
  induction olds with
  | nil => intro m hm; simpa [addOldItems] using hm
  | cons hd tl ih =>
      intro m hm
      simp only [addOldItems]
      apply ih
      by_cases h : truthyStr hd.link
      · simpa [h] using mapWF_set hm rfl
      · simpa [h] using hm

theorem mapWF_addNewItems (ns : List FeedItem) :
    ∀ (m : ItemMap) (acc : List FeedItem), MapWF m → MapWF (addNewItems m acc ns).1 := by
  induction ns with
  | nil => intro m acc hm; simpa [addNewItems] using hm
  | cons hd tl ih =>
      intro m acc hm
      by_cases h : truthyStr hd.link
      · simp only [addNewItems, h, if_true]
        exact ih _ _ (mapWF_set hm (serializeMerged_link _ _))
      · simp only [addNewItems, h, if_false]
        exact ih _ _ hm

/-! Lemmas about the two merge loops. -/

theorem addNewItems_append (l₁ l₂ : List FeedItem) :
    ∀ (m : ItemMap) (acc : List FeedItem),
      addNewItems m acc (l₁ ++ l₂) =
        addNewItems (addNewItems m acc l₁).1 (addNewItems m acc l₁).2 l₂ := by
  induction l₁ with
  | nil => intro m acc; simp [addNewItems]
  | cons hd tl ih =>
      intro m acc
      by_cases h : truthyStr hd.link
      · simp only [List.cons_append, addNewItems, h, if_true]
        exact ih _ _
      · simp only [List.cons_append, addNewItems, h, if_false]
        exact ih _ _

theorem mapGet_addOldItems_of_ne (olds : List FeedItem) (k : String)
    (h : ∀ y ∈ olds, truthyStr y.link → y.link ≠ k) :
    ∀ m : ItemMap, mapGet (addOldItems m olds) k = mapGet m k := by
  induction olds with
  | nil => intro m; simp [addOldItems]
  | cons hd tl ih =>
      intro m
      have htl : ∀ y ∈ tl, truthyStr y.link → y.link ≠ k := by
        intro y hy
        exact h y (List.mem_cons_of_mem _ hy)
      by_cases hh : truthyStr hd.link
      · have hne : hd.link ≠ k := h hd (List.mem_cons_self _ _) hh
        simp only [addOldItems, hh, if_true]
        rw [ih htl, mapGet_set_ne _ _ _ _ (Ne.symm hne)]
      · simp only [addOldItems, hh, if_false]
        exact ih htl m

theorem mapGet_addNewItems_of_ne (ns : List FeedItem) (k : String)
    (h : ∀ y ∈ ns, truthyStr y.link → y.link ≠ k) :
    ∀ (m : ItemMap) (acc : List FeedItem), mapGet (addNewItems m acc ns).1 k = mapGet m k := by
  induction ns with
  | nil => intro m acc; simp [addNewItems]
  | cons hd tl ih =>
      intro m acc
      have htl : ∀ y ∈ tl, truthyStr y.link → y.link ≠ k := by
        intro y hy
        exact h y (List.mem_cons_of_mem _ hy)
      by_cases hh : truthyStr hd.link
      · have hne : hd.link ≠ k := h hd (List.mem_cons_self _ _) hh
        simp only [addNewItems, hh, if_true]
        rw [ih htl, mapGet_set_ne _ _ _ _ (Ne.symm hne)]
      · simp only [addNewItems, hh, if_false]
        exact ih htl m acc

theorem mapGet_addOldItems_self (olds : List FeedItem) (old : FeedItem)
    (hnd : (olds.map FeedItem.link).Nodup) (hmem : old ∈ olds)
    (ht : truthyStr old.link = true) :
    ∀ m : ItemMap, mapGet (addOldItems m olds) old.link = some old := by
  induction olds with
  | nil => cases hmem
  | cons hd tl ih =>
      intro m
      simp only [List.map_cons, List.nodup_cons] at hnd
      rcases List.mem_cons.mp hmem with hcase | hcase
      · subst hcase
        have htl : ∀ y ∈ tl, truthyStr y.link → y.link ≠ old.link := by
          intro y hy _ hlink
          exact hnd.1 (hlink ▸ List.mem_map_of_mem FeedItem.link hy)
        simp only [addOldItems, ht, if_true]
        rw [mapGet_addOldItems_of_ne tl old.link htl, mapGet_set_self]
      · exact ih hnd.2 hcase _

theorem mapHas_addNewItems_mono (ns : List FeedItem) (k : String) :
    ∀ (m : ItemMap) (acc : List FeedItem), mapHas m k = true →
      mapHas (addNewItems m acc ns).1 k = true := by
  induction ns with
  | nil => intro m acc h; simpa [addNewItems] using h
  | cons hd tl ih =>
      intro m acc h
      by_cases hh : truthyStr hd.link
      · simp only [addNewItems, hh, if_true]
        exact ih _ _ (mapHas_set _ _ _ _ h)
      · simp only [addNewItems, hh, if_false]
        exact ih _ _ h

theorem mapHas_addNewItems_mem (ns : List FeedItem) (item : FeedItem)
    (hmem : item ∈ ns) (ht : truthyStr item.link = true) :
    ∀ (m : ItemMap) (acc : List FeedItem), mapHas (addNewItems m acc ns).1 item.link = true := by
  induction ns with
  | nil => cases hmem
  | cons hd tl ih =>
      intro m acc
      rcases List.mem_cons.mp hmem with hcase | hcase
      · subst hcase
        simp only [addNewItems, ht, if_true]
        exact mapHas_addNewItems_mono tl item.link _ _
          (by simp [mapHas, mapGet_set_self])
      · by_cases hh : truthyStr hd.link
        · simp only [addNewItems, hh, if_true]
          exact ih hcase _ _
        · simp only [addNewItems, hh, if_false]
          exact ih hcase _ _

/-- A truthy summary stored under a key survives the whole fresh-items loop:
line 277 always prefers the existing summary when it is truthy. -/
theorem mapGet_addNewItems_truthy_summary (ns : List FeedItem) (k : String) :
    ∀ (m : ItemMap) (acc : List FeedItem) (v : FeedItem),
      mapGet m k = some v → truthyOptStr v.summary = true →
      ∃ w, mapGet (addNewItems m acc ns).1 k = some w ∧ w.summary = v.summary := by
  induction ns with
  | nil =>
      intro m acc v hget _
      exact ⟨v, by simpa [addNewItems] using hget, rfl⟩
  | cons hd tl ih =>
      intro m acc v hget hs
      by_cases hh : truthyStr hd.link
      · simp only [addNewItems, hh, if_true]
        by_cases hk : hd.link = k
        · subst hk
          have hser :
              (serializeMerged (mapGet m hd.link) hd).summary = v.summary := by
            rw [hget]
            simp [serializeMerged, jsOrSummary, Option.bind, hs]
          obtain ⟨w, hw, hws⟩ := ih (mapSet m hd.link (serializeMerged (mapGet m hd.link) hd))
            (if (mapGet m hd.link).isNone then acc ++ [hd] else acc)
            (serializeMerged (mapGet m hd.link) hd) (mapGet_set_self _ _ _)
            (by rw [hser]; exact hs)
          exact ⟨w, hw, hws.trans hser⟩
        · obtain ⟨w, hw, hws⟩ := ih (mapSet m hd.link (serializeMerged (mapGet m hd.link) hd))
            (if (mapGet m hd.link).isNone then acc ++ [hd] else acc) v
            (by rw [mapGet_set_ne _ _ _ _ (Ne.symm hk)]; exact hget) hs
          exact ⟨w, hw, hws⟩
      · simp only [addNewItems, hh, if_false]
        exact ih m acc v hget hs

/-- When exactly one fresh item carries a given link, the final map holds the
serialisation of that item against whatever the map associated to the link
before the loop. -/
theorem mapGet_addNewItems_single (pre post : List FeedItem) (x : FeedItem)
    (hpre : ∀ y ∈ pre, truthyStr y.link → y.link ≠ x.link)
    (hpost : ∀ y ∈ post, truthyStr y.link → y.link ≠ x.link)
    (ht : truthyStr x.link = true) (m : ItemMap) (acc : List FeedItem) :
    mapGet (addNewItems m acc (pre ++ x :: post)).1 x.link =
      some (serializeMerged (mapGet m x.link) x) := by
  rw [addNewItems_append]
  have hmid : mapGet (addNewItems m acc pre).1 x.link = mapGet m x.link :=
    mapGet_addNewItems_of_ne pre x.link hpre m acc
  simp only [addNewItems, ht, if_true]
  rw [mapGet_addNewItems_of_ne post x.link hpost, hmid, mapGet_set_self]

/-- When every truthy-link fresh item is already in the map, no item is ever
classified as new (line 269's branch is never taken). -/
theorem addNewItems_acc_of_has (ns : List FeedItem) :
    ∀ (m : ItemMap) (acc : List FeedItem),
      (∀ item ∈ ns, truthyStr item.link → mapHas m item.link = true) →
      (addNewItems m acc ns).2 = acc := by
  induction ns with
  | nil => intro m acc _; simp [addNewItems]
  | cons hd tl ih =>
      intro m acc h
      have htl : ∀ item ∈ tl, truthyStr item.link → mapHas (mapSet m hd.link
          (serializeMerged (mapGet m hd.link) hd)) item.link = true := by
        intro item hitem hti
        exact mapHas_set _ _ _ _ (h item (List.mem_cons_of_mem _ hitem) hti)
      by_cases hh : truthyStr hd.link
      · have hhas : mapHas m hd.link = true := h hd (List.mem_cons_self _ _) hh
        have hnone : (mapGet m hd.link).isNone = false := by
          simpa [mapHas, Option.isNone_iff_eq_none, Option.isSome_iff_ne_none] using hhas
        simp only [addNewItems, hh, if_true, hnone, Bool.false_eq_true, if_false]
        exact ih _ _ htl
      · simp only [addNewItems, hh, if_false]
        exact ih _ _ fun item hitem hti => h item (List.mem_cons_of_mem _ hitem) hti

/-- When no truthy-link fresh item is in the map and fresh links are pairwise
distinct, every truthy-link fresh item is classified as new. -/
theorem addNewItems_acc_of_not_has (ns : List FeedItem)
    (hnd : ((ns.filter fun it => truthyStr it.link).map FeedItem.link).Nodup) :
    ∀ (m : ItemMap) (acc : List FeedItem),
      (∀ item ∈ ns, truthyStr item.link → mapHas m item.link = false) →
      (addNewItems m acc ns).2 = acc ++ ns.filter fun it => truthyStr it.link := by
  induction ns with
  | nil => intro m acc _; simp [addNewItems]
  | cons hd tl ih =>
      intro m acc h
      by_cases hh : truthyStr hd.link
      · have hnd' := hnd
        simp only [List.filter_cons, hh, if_true, List.map_cons, List.nodup_cons] at hnd'
        have htl : ∀ item ∈ tl, truthyStr item.link → mapHas (mapSet m hd.link
            (serializeMerged (mapGet m hd.link) hd)) item.link = false := by
          intro item hitem hti
          have hne : item.link ≠ hd.link := by
            intro heq
            exact hnd'.1 (heq ▸ List.mem_map_of_mem FeedItem.link
              (List.mem_filter.mpr ⟨hitem, hti⟩))
          simpa [mapHas, mapGet_set_ne _ _ _ _ hne] using
            h item (List.mem_cons_of_mem _ hitem) hti
        have hnone : (mapGet m hd.link).isNone = true := by
          simpa [mapHas, Option.isNone_iff_eq_none, Option.isSome_iff_ne_none] using
            h hd (List.mem_cons_self _ _) hh
        simp only [addNewItems, hh, if_true, hnone]
        rw [ih hnd'.2 _ _ htl]
        simp [List.filter_cons, hh]
      · have hnd' : ((tl.filter fun it => truthyStr it.link).map FeedItem.link).Nodup := by
          simpa [List.filter_cons, hh] using hnd
        have hstep : addNewItems m acc (hd :: tl) = addNewItems m acc tl := by
          simp [addNewItems, hh]
        rw [hstep, ih hnd' m acc fun item hitem hti => h item (List.mem_cons_of_mem _ hitem) hti]
        simp [List.filter_cons, hh]

/-! Characterisation of the merged list (lines 286-289). -/

/-- The final state of the `Map` built by `mergeFeedItems`. -/
def finalMap (oldItems newItems : List FeedItem) : ItemMap :=
  (addNewItems (addOldItems [] oldItems) [] newItems).1

theorem finalMap_wf (oldItems newItems : List FeedItem) :
    MapWF (finalMap oldItems newItems) :=
  mapWF_addNewItems newItems _ [] (mapWF_addOldItems oldItems [] mapWF_nil)

theorem finalMap_has (oldItems newItems : List FeedItem) (item : FeedItem)
    (hmem : item ∈ newItems) (ht : truthyStr item.link = true) :
    mapHas (finalMap oldItems newItems) item.link = true :=
  mapHas_addNewItems_mem newItems item hmem ht _ []

/-- The `itemsMap.has` half of the filter at line 287 never rules anything
out: the loop has inserted every fresh item that has a link. -/
theorem merge_filter_eq (oldItems newItems : List FeedItem) :
    (newItems.filter fun item =>
        truthyStr item.link && mapHas (finalMap oldItems newItems) item.link) =
      newItems.filter fun item => truthyStr item.link := by
  apply List.filter_congr
  intro item hmem
  by_cases ht : truthyStr item.link
  · simp [ht, finalMap_has oldItems newItems item hmem ht]
  · simp [ht]

/-- The merged list is the link-bearing fresh items, each replaced by the map
entry under its link, truncated to `maxItems`. -/
theorem mergedItems_eq (oldItems newItems : List FeedItem) (maxItems : Nat) :
    (mergeFeedItems oldItems newItems maxItems).1 =
      ((newItems.filter fun item => truthyStr item.link).map fun item =>
        (mapGet (finalMap oldItems newItems) item.link).getD item).take maxItems := by
  show (((newItems.filter fun item =>
      truthyStr item.link && mapHas (finalMap oldItems newItems) item.link).map
        fun item => if truthyStr item.link then
          (mapGet (finalMap oldItems newItems) item.link).getD item else item).take
        maxItems) = _
  rw [merge_filter_eq]
  congr 1
  apply List.map_congr_left
  intro item hmem
  simp [(List.mem_filter.mp hmem).2]

/-- The replacement at line 288 keeps each item's link. -/
theorem merged_entry_link (oldItems newItems : List FeedItem) (item : FeedItem)
    (hmem : item ∈ newItems) (ht : truthyStr item.link = true) :
    ((mapGet (finalMap oldItems newItems) item.link).getD item).link = item.link := by
  have hhas := finalMap_has oldItems newItems item hmem ht
  rcases Option.isSome_iff_exists.mp (by simpa [mapHas] using hhas) with ⟨w, hw⟩
  rw [hw]
  exact finalMap_wf oldItems newItems item.link w hw

/-- C3: for every pair of input lists and every `maxItems`, the merged list
never exceeds `maxItems` entries, its length is exactly
`min maxItems (number of fresh entries with a link)`, and every merged entry
carries a non-empty link (fresh entries lacking a link are excluded). -/
theorem mergeFeedItems_truncation (oldItems newItems : List FeedItem) (maxItems : Nat) :
    (mergeFeedItems oldItems newItems maxItems).1.length ≤ maxItems ∧
    (mergeFeedItems oldItems newItems maxItems).1.length =
      min maxItems (newItems.filter fun item => truthyStr item.link).length ∧
    ∀ x ∈ (mergeFeedItems oldItems newItems maxItems).1, truthyStr x.link = true := by
  rw [mergedItems_eq]
  refine ⟨?_, ?_, ?_⟩
  · simp
  · simp
  · intro x hx
    have hx' := (List.take_sublist _ _).mem hx
    rcases List.mem_map.mp hx' with ⟨item, hitem, hrep⟩
    have hmem := (List.mem_filter.mp hitem).1
    have ht := (List.mem_filter.mp hitem).2
    rw [← hrep, merged_entry_link oldItems newItems item hmem ht]
    exact ht

/-- C3 sample run: two link-bearing fresh items and one linkless one, with
`maxItems = 2`. -/
theorem mergeFeedItems_truncation_witness :
    (mergeFeedItems [] [mkItem "x" none, mkItem "" none, mkItem "y" none] 2).1.length = 2 ∧
    truthyStr (mkItem "x" none).link = true :=
  ⟨by
    rcases mergeFeedItems_truncation [] [mkItem "x" none, mkItem "" none, mkItem "y" none] 2
      with ⟨-, hlen, -⟩
    rw [hlen]
    decide,
   by
    rcases mergeFeedItems_truncation [] [mkItem "x" none, mkItem "" none, mkItem "y" none] 2
      with ⟨-, -, hall⟩
    exact hall _ (by decide)⟩

/-- C2 counterexample: the final array is rebuilt from `newItems` (line 286),
not from the `Map`, so a fresh list that repeats a link yields a merged list
with two entries sharing that link. -/
theorem mergeFeedItems_link_nodup_cex :
    ¬ (((mergeFeedItems [] [mkItem "a" none, mkItem "a" none] 2).1.map
      FeedItem.link).Nodup) := by decide

/-- C2 (amended): if no two link-bearing fresh entries share a link, then no
two entries of the merged output share a link. -/
theorem mergeFeedItems_link_nodup (oldItems newItems : List FeedItem) (maxItems : Nat)
    (hnd : ((newItems.filter fun it => truthyStr it.link).map FeedItem.link).Nodup) :
    ((mergeFeedItems oldItems newItems maxItems).1.map FeedItem.link).Nodup := by
  rw [mergedItems_eq, List.map_take, List.map_map]
  have hmaps : (newItems.filter fun it => truthyStr it.link).map
      (FeedItem.link ∘ fun item => (mapGet (finalMap oldItems newItems) item.link).getD item) =
      (newItems.filter fun it => truthyStr it.link).map FeedItem.link := by
    apply List.map_congr_left
    intro item hitem
    exact merged_entry_link oldItems newItems item (List.mem_filter.mp hitem).1
      (List.mem_filter.mp hitem).2
  rw [hmaps]
  exact List.Nodup.sublist (List.take_sublist _ _) hnd

/-- C2 witness: a duplicate-free fresh list keeps the merged links duplicate
free. -/
theorem mergeFeedItems_link_nodup_witness :
    ((mergeFeedItems [mkItem "a" (some "S")] [mkItem "a" none, mkItem "b" none] 10).1.map
      FeedItem.link).Nodup :=
  mergeFeedItems_link_nodup _ _ _ (by decide)

/-- C1 counterexample: when the previous list repeats a link, the later old
entry overwrites the earlier one in the `Map` (line 257), so a non-empty
summary held by the earlier entry is lost even though the fresh list contains
that link with no summary. -/
theorem mergeFeedItems_summary_preservation_cex :
    (mkItem "a" (some "S")) ∈ [mkItem "a" (some "S"), mkItem "a" none] ∧
    (mkItem "a" (some "S")).summary = some "S" ∧
    (mkItem "a" none) ∈ [mkItem "a" none] ∧
    (mkItem "a" none).link = (mkItem "a" (some "S")).link ∧
    (mkItem "a" none).summary = none ∧
    ¬ ∃ m ∈ (mergeFeedItems [mkItem "a" (some "S"), mkItem "a" none]
        [mkItem "a" none] 10).1,
      m.link = (mkItem "a" (some "S")).link ∧ m.summary = some "S" := by decide

/-- C1 (amended): assume the previous list's links are pairwise distinct.
Then every merged entry carrying the link of a previous entry with non-empty
summary keeps that summary unchanged, and such a merged entry exists whenever
some link-bearing fresh entry with that link survives the `maxItems`
truncation. -/
theorem mergeFeedItems_summary_preservation (oldItems newItems : List FeedItem)
    (maxItems : Nat) (old : FeedItem) (s : String)
    (hnd : (oldItems.map FeedItem.link).Nodup)
    (hmem : old ∈ oldItems) (hsum : old.summary = some s) (hs : s ≠ "") :
    (∀ m ∈ (mergeFeedItems oldItems newItems maxItems).1,
        m.link = old.link → m.summary = some s) ∧
    ((∃ it ∈ (newItems.filter fun it => truthyStr it.link).take maxItems,
        it.link = old.link) →
      ∃ m ∈ (mergeFeedItems oldItems newItems maxItems).1,
        m.link = old.link ∧ m.summary = some s) := by
  have hts : truthyOptStr old.summary = true := by
    rw [hsum]
    simp [truthyOptStr, truthyStr, hs]
  have hpart1 : ∀ m ∈ (mergeFeedItems oldItems newItems maxItems).1,
      m.link = old.link → m.summary = some s := by
    intro m hm hlink
    rw [mergedItems_eq] at hm
    have hm' := (List.take_sublist _ _).mem hm
    rcases List.mem_map.mp hm' with ⟨item, hitem, hrep⟩
    have hmemN := (List.mem_filter.mp hitem).1
    have ht := (List.mem_filter.mp hitem).2
    have hlinkitem : item.link = old.link := by
      rw [← merged_entry_link oldItems newItems item hmemN ht, hrep, hlink]
    have htold : truthyStr old.link = true := hlinkitem ▸ ht
    have hget0 : mapGet (addOldItems [] oldItems) old.link = some old :=
      mapGet_addOldItems_self oldItems old hnd hmem htold []
    obtain ⟨w, hw, hws⟩ :=
      mapGet_addNewItems_truthy_summary newItems old.link _ [] old hget0 hts
    have hwF : mapGet (finalMap oldItems newItems) old.link = some w := hw
    have hmw : m = w := by
      rw [← hrep, hlinkitem, hwF]
      rfl
    rw [hmw, hws, hsum]
  refine ⟨hpart1, ?_⟩
  rintro ⟨it, hit, hlinkit⟩
  have hitF : it ∈ newItems.filter fun it => truthyStr it.link :=
    (List.take_sublist _ _).mem hit
  have hmmem : ((mapGet (finalMap oldItems newItems) it.link).getD it) ∈
      (mergeFeedItems oldItems newItems maxItems).1 := by
    rw [mergedItems_eq, ← List.map_take]
    exact List.mem_map_of_mem _ hit
  have hlinkm : ((mapGet (finalMap oldItems newItems) it.link).getD it).link = old.link := by
    rw [merged_entry_link oldItems newItems it (List.mem_filter.mp hitF).1
      (List.mem_filter.mp hitF).2, hlinkit]
  exact ⟨_, hmmem, hlinkm, hpart1 _ hmmem hlinkm⟩

/-- C1 witness: the spec's own scenario 1 — the old summary "S" survives. -/
theorem mergeFeedItems_summary_preservation_witness :
    ∃ m ∈ (mergeFeedItems [mkItem "a" (some "S")] [mkItem "a" none, mkItem "b" none] 10).1,
      m.link = (mkItem "a" (some "S")).link ∧ m.summary = some "S" :=
  (mergeFeedItems_summary_preservation [mkItem "a" (some "S")]
    [mkItem "a" none, mkItem "b" none] 10 (mkItem "a" (some "S")) "S"
    (by decide) (by decide) rfl (by decide)).2 (by decide)

theorem jsOrSummary_self (a : Option String) : jsOrSummary a a = a := by
  unfold jsOrSummary
  split <;> rfl

theorem jsOrSummary_empty (b : Option String) : jsOrSummary (some "") b = b := rfl

theorem serializeMerged_self (item : FeedItem) : serializeMerged (some item) item = item := by
  show ({ item with summary := jsOrSummary item.summary item.summary } : FeedItem) = item
  rw [jsOrSummary_self]

/-- Links of the members before and after a distinguished occurrence inside a
nodup-link list differ from the distinguished member's link. -/
theorem links_ne_of_nodup (pre post : List FeedItem) (x : FeedItem)
    (hnd : (((pre ++ x :: post).map FeedItem.link)).Nodup) :
    (∀ y ∈ pre, y.link ≠ x.link) ∧ ∀ y ∈ post, y.link ≠ x.link := by
  rw [List.map_append, List.map_cons, List.nodup_append] at hnd
  constructor
  · intro y hy heq
    exact hnd.2.2 (List.mem_map_of_mem FeedItem.link hy) (heq ▸ List.mem_cons_self _ _)
  · intro y hy heq
    exact (List.nodup_cons.mp hnd.2.1).1 (heq ▸ List.mem_map_of_mem FeedItem.link hy)

/-- C7 counterexample: an entry whose `link` is the empty string is dropped by
the merge (lines 256, 266, 287), so merging a one-element snapshot with itself
loses the entry even though its links are (trivially) pairwise distinct and
`maxItems` is large enough. -/
theorem mergeFeedItems_idempotent_cex :
    (List.map FeedItem.link [mkItem "" none]).Nodup ∧
    ([mkItem "" none] : List FeedItem).length ≤ 10 ∧
    mergeFeedItems [mkItem "" none] [mkItem "" none] 10 = ([], []) ∧
    ([] : List FeedItem) ≠ [mkItem "" none] := by decide

/-- C7 (amended): merging a list with itself is the identity — and no summary
is lost — provided the links are pairwise distinct and all non-empty, and
`maxItems` is at least the list's length; `needsSummary` comes back empty. -/
theorem mergeFeedItems_idempotent (L : List FeedItem) (maxItems : Nat)
    (hnd : (L.map FeedItem.link).Nodup)
    (hall : ∀ item ∈ L, truthyStr item.link = true)
    (hlen : L.length ≤ maxItems) :
    mergeFeedItems L L maxItems = (L, []) := by
  have hm0 : ∀ item ∈ L, truthyStr item.link → mapHas (addOldItems [] L) item.link = true := by
    intro item hitem ht
    rw [mapHas, mapGet_addOldItems_self L item hnd hitem ht]
    rfl
  have hacc : (mergeFeedItems L L maxItems).2 = [] := by
    show (addNewItems (addOldItems [] L) [] L).2 = []
    exact addNewItems_acc_of_has L _ [] hm0
  have hmerged : (mergeFeedItems L L maxItems).1 = L := by
    rw [mergedItems_eq, List.filter_eq_self.mpr hall]
    have hmap : (L.map fun item => (mapGet (finalMap L L) item.link).getD item) = L.map id := by
      apply List.map_congr_left
      intro item hitem
      rcases List.append_of_mem hitem with ⟨pre, post, hdecomp⟩
      have hnd2 := hnd
      rw [hdecomp] at hnd2
      have hne := links_ne_of_nodup pre post item hnd2
      have hsingle := mapGet_addNewItems_single pre post item
        (fun y hy _ => hne.1 y hy) (fun y hy _ => hne.2 y hy)
        (hall item hitem) (addOldItems [] L) []
      have hfin : finalMap L L = (addNewItems (addOldItems [] L) [] (pre ++ item :: post)).1 := by
        rw [← hdecomp]
        rfl
      rw [hfin, hsingle, mapGet_addOldItems_self L item hnd hitem (hall item hitem),
        serializeMerged_self]
      rfl
    rw [hmap, List.map_id, List.take_of_length_le hlen]
  rw [Prod.ext_iff]
  exact ⟨hmerged, hacc⟩

/-- C7 witness: a two-element snapshot with distinct non-empty links merges
with itself to exactly itself, with nothing left to summarise. -/
theorem mergeFeedItems_idempotent_witness :
    mergeFeedItems [mkItem "a" (some "S"), mkItem "b" none]
      [mkItem "a" (some "S"), mkItem "b" none] 5 =
      ([mkItem "a" (some "S"), mkItem "b" none], []) :=
  mergeFeedItems_idempotent [mkItem "a" (some "S"), mkItem "b" none] 5
    (by decide) (by decide) (by decide)

/-- C9: an old entry whose summary is the empty string is treated as having no
summary: the merged record for its link takes the fresh entry's summary
(possibly absent), because line 277 tests truthiness of the old summary, not
its presence.  Stated for pairwise-distinct old links and a unique
link-bearing fresh occurrence surviving truncation, so that "the merged
record" is well defined. -/
theorem mergeFeedItems_empty_summary_not_preserved (oldItems newItems : List FeedItem)
    (maxItems : Nat) (old fresh : FeedItem)
    (hndOld : (oldItems.map FeedItem.link).Nodup)
    (hndNew : ((newItems.filter fun it => truthyStr it.link).map FeedItem.link).Nodup)
    (hmem : old ∈ oldItems) (hsum : old.summary = some "")
    (hlink : fresh.link = old.link)
    (hwin : fresh ∈ (newItems.filter fun it => truthyStr it.link).take maxItems) :
    ∃ m ∈ (mergeFeedItems oldItems newItems maxItems).1,
      m.link = old.link ∧ m.summary = fresh.summary := by
  have hfilter : fresh ∈ newItems.filter fun it => truthyStr it.link :=
    (List.take_sublist _ _).mem hwin
  have hfmem : fresh ∈ newItems := (List.mem_filter.mp hfilter).1
  have ht : truthyStr fresh.link = true := (List.mem_filter.mp hfilter).2
  rcases List.append_of_mem hfmem with ⟨pre, post, hdecomp⟩
  have hndNew2 := hndNew
  rw [hdecomp, List.filter_append] at hndNew2
  simp only [List.filter_cons, ht, if_true] at hndNew2
  have hpre : ∀ y ∈ pre, truthyStr y.link → y.link ≠ fresh.link := by
    intro y hy hty
    exact (links_ne_of_nodup (pre.filter fun it => truthyStr it.link)
      (post.filter fun it => truthyStr it.link) fresh hndNew2).1 y
      (List.mem_filter.mpr ⟨hy, hty⟩)
  have hpost : ∀ y ∈ post, truthyStr y.link → y.link ≠ fresh.link := by
    intro y hy hty
    exact (links_ne_of_nodup (pre.filter fun it => truthyStr it.link)
      (post.filter fun it => truthyStr it.link) fresh hndNew2).2 y
      (List.mem_filter.mpr ⟨hy, hty⟩)
  have hsingle := mapGet_addNewItems_single pre post fresh hpre hpost ht
    (addOldItems [] oldItems) []
  have hfin : finalMap oldItems newItems =
      (addNewItems (addOldItems [] oldItems) [] (pre ++ fresh :: post)).1 := by
    rw [← hdecomp]
    rfl
  have hold : mapGet (addOldItems [] oldItems) fresh.link = some old := by
    rw [hlink]
    exact mapGet_addOldItems_self oldItems old hndOld hmem (hlink ▸ ht) []
  have hser : serializeMerged (mapGet (addOldItems [] oldItems) fresh.link) fresh = fresh := by
    rw [hold]
    show ({ fresh with summary := jsOrSummary old.summary fresh.summary } : FeedItem) = fresh
    rw [hsum, jsOrSummary_empty]
  have hget : mapGet (finalMap oldItems newItems) fresh.link = some fresh := by
    rw [hfin, hsingle, hser]
  refine ⟨fresh, ?_, hlink, rfl⟩
  rw [mergedItems_eq, ← List.map_take]
  have : fresh = (fun item => (mapGet (finalMap oldItems newItems) item.link).getD item) fresh := by
    show fresh = (mapGet (finalMap oldItems newItems) fresh.link).getD fresh
    rw [hget]
    rfl
  exact this ▸ List.mem_map_of_mem _ hwin

/-- C9 witness: old summary `""` is replaced by the fresh entry's summary. -/
theorem mergeFeedItems_empty_summary_not_preserved_witness :
    ∃ m ∈ (mergeFeedItems [mkItem "a" (some "")] [mkItem "a" (some "F")] 10).1,
      m.link = (mkItem "a" (some "")).link ∧ m.summary = (mkItem "a" (some "F")).summary :=
  mergeFeedItems_empty_summary_not_preserved [mkItem "a" (some "")] [mkItem "a" (some "F")]
    10 (mkItem "a" (some "")) (mkItem "a" (some "F"))
    (by decide) (by decide) (by decide) rfl rfl (by decide)

/-!
Retry policy.  The script delegates retrying to the third-party `p-retry`
package (`retry(() => generateSummaryWithLimit(...), RETRY_CONFIG)`, lines
340-343), whose code is not part of this repository, so the executor is
modelled from the spec (section 4.3).
-/

/-- Outcome of one invocation of the wrapped operation: success, a retryable
error, or the distinguished abort condition (the rate-limit `AbortError`
thrown at line 192). -/
inductive RetryOutcome where
  | ok (value : String)
  | err (msg : String)
  | abort (msg : String)
  deriving DecidableEq, Repr

/-- Modelled from the spec: `RetryPolicy.execute` attempts the operation up
to `maxAttempts` times, stopping early on success or on an abort condition;
the operation is modelled as a function from the attempt index (0-based) to
its outcome, and the result is paired with the number of invocations made. -/
def executeAttempts (op : Nat → RetryOutcome) : Nat → Nat → RetryOutcome × Nat
  | _, 0 => (.err "", 0)
  | i, 1 =>
      (op i, 1)
  | i, n+2 =>
      match op i with
      | .ok v => (.ok v, 1)
      | .abort e => (.abort e, 1)
      | .err _ => ((executeAttempts op (i+1) (n+1)).1, (executeAttempts op (i+1) (n+1)).2 + 1)

/-- Modelled from the spec: `RetryPolicy.execute operation maxAttempts`. -/
def RetryPolicy.execute (op : Nat → RetryOutcome) (maxAttempts : Nat) :
    RetryOutcome × Nat :=
  executeAttempts op 0 maxAttempts

/-- The spec's default number of attempts ("default 3"). -/
def RETRY_MAX_ATTEMPTS : Nat := 3

theorem executeAttempts_count_le (op : Nat → RetryOutcome) :
    ∀ (n i : Nat), (executeAttempts op i n).2 ≤ n := by
  intro n
  induction n with
  | zero => intro i; simp [executeAttempts]
  | succ m ih =>
      intro i
      match m with
      | 0 => simp [executeAttempts]
      | k+1 =>
          simp only [executeAttempts]
          cases op i with
          | ok v => simp
          | abort e => simp
          | err e =>
              simpa using Nat.succ_le_succ (ih (i+1))

theorem executeAttempts_abort (op : Nat → RetryOutcome) :
    ∀ (k n i : Nat) (e : String), k < n →
      (∀ j, j < k → ∃ d, op (i + j) = .err d) → op (i + k) = .abort e →
      executeAttempts op i n = (.abort e, k + 1) := by
  intro k
  induction k with
  | zero =>
      intro n i e hk _ habort
      simp only [Nat.add_zero] at habort
      match n, hk with
      | 1, _ => simp [executeAttempts, habort]
      | m+2, _ => simp [executeAttempts, habort]
  | succ k' ih =>
      intro n i e hk herr habort
      obtain ⟨d, hd⟩ := herr 0 (Nat.succ_pos k')
      rw [Nat.add_zero] at hd
      match n, hk with
      | m+2, hk =>
          have herr' : ∀ j, j < k' → ∃ d', op (i + 1 + j) = .err d' := by
            intro j hj
            obtain ⟨d', hd'⟩ := herr (j+1) (Nat.succ_lt_succ hj)
            refine ⟨d', ?_⟩
            rw [show i + 1 + j = i + (j + 1) from by omega]
            exact hd'
          have habort' : op (i + 1 + k') = .abort e := by
            rw [show i + 1 + k' = i + (k' + 1) from by omega]
            exact habort
          have hrec := ih (m+1) (i+1) e (Nat.lt_of_succ_lt_succ hk) herr' habort'
          simp only [executeAttempts, hd, hrec]

/-- C4: the retry wrapper invokes the operation at most `maxAttempts` times,
and an abort condition on attempt `k` (0-based index; `k+1 ≤ maxAttempts`)
stops all further attempts — exactly `k+1` invocations — and propagates that
error. -/
theorem retryPolicy_bound_and_abort (op : Nat → RetryOutcome) (maxAttempts : Nat) :
    (RetryPolicy.execute op maxAttempts).2 ≤ maxAttempts ∧
    (∀ (k : Nat) (e : String), k < maxAttempts →
      (∀ j, j < k → ∃ d, op j = .err d) → op k = .abort e →
      RetryPolicy.execute op maxAttempts = (.abort e, k + 1)) := by
  constructor
  · exact executeAttempts_count_le op maxAttempts 0
  · intro k e hk herr habort
    exact executeAttempts_abort op k maxAttempts 0 e hk
      (by simpa using herr) (by simpa using habort)

/-- C4 witness: with the default three attempts, an operation that fails
retryably once and then hits the rate limit is invoked exactly twice and the
abort error propagates. -/
theorem retryPolicy_bound_and_abort_witness :
    RetryPolicy.execute
        (fun i => if i = 0 then .err "transient" else .abort "rate limited")
        RETRY_MAX_ATTEMPTS = (.abort "rate limited", 2) :=
  (retryPolicy_bound_and_abort
      (fun i => if i = 0 then .err "transient" else .abort "rate limited")
      RETRY_MAX_ATTEMPTS).2 1 "rate limited" (by decide)
    (by
      intro j hj
      exact ⟨"transient", by simp [Nat.lt_one_iff.mp hj]⟩)
    (by decide)

/-!
Token budget guard: the per-minute token counter of `updateFeed`
(lines 146-148, 326-345).  One reservation first checks
`currentMinuteTokens + estimatedTokens > 900000`; if so it waits for the rest
of the 60s window and zeroes the counter, and in either case the estimate is
added to the counter only when the summarization call succeeds (line 345).
-/

structure TokenGuard where
  currentMinuteTokens : Nat
  lastResetTime : Nat
  deriving DecidableEq, Repr

/-- The ceiling checked at line 332. -/
def TOKEN_CEILING : Nat := 900000

/-- The 60-second window (in milliseconds) of lines 301 and 334. -/
def WINDOW_MS : Nat := 60000

/-- One reservation (lines 332-337 and 345): returns `some wait` when the
budget check forced a pause of `wait` ms, `none` otherwise, together with the
updated guard state.  `success` tells whether the summarization call
succeeded, since only then is the estimate charged. -/
def reserveTokens (g : TokenGuard) (now est : Nat) (success : Bool) :
    Option Nat × TokenGuard :=
  if g.currentMinuteTokens + est > TOKEN_CEILING then
    (some (WINDOW_MS - (now - g.lastResetTime)),
      { currentMinuteTokens := if success then est else 0,
        lastResetTime := now + (WINDOW_MS - (now - g.lastResetTime)) })
  else
    (none,
      { currentMinuteTokens :=
          if success then g.currentMinuteTokens + est else g.currentMinuteTokens,
        lastResetTime := g.lastResetTime })

/-- A sequence of reservations: each call is `(now, est, success)`; the trace
records, per call, the wait (if any) and the counter value after the call. -/
def reserveTrace (g : TokenGuard) : List (Nat × Nat × Bool) → List (Option Nat × Nat)
  | [] => []
  | c :: rest =>
      ((reserveTokens g c.1 c.2.1 c.2.2).1,
        ((reserveTokens g c.1 c.2.1 c.2.2).2).currentMinuteTokens)
        :: reserveTrace ((reserveTokens g c.1 c.2.1 c.2.2).2) rest

/-- C5: along any sequence of reservations, every step that did not trigger a
wait leaves the counter at or below the ceiling; and a reservation that would
exceed the ceiling triggers a suspension for exactly the remainder of the
60-second window, after which the counter is reset (to the newly charged
estimate on success, to zero otherwise). -/
theorem tokenBudget_never_exceeded (g : TokenGuard) (calls : List (Nat × Nat × Bool)) :
    (∀ x ∈ reserveTrace g calls, x.1 = none → x.2 ≤ TOKEN_CEILING) ∧
    (∀ (now est : Nat) (success : Bool),
      g.currentMinuteTokens + est > TOKEN_CEILING →
      (reserveTokens g now est success).1 = some (WINDOW_MS - (now - g.lastResetTime)) ∧
      ((reserveTokens g now est success).2).currentMinuteTokens =
        (if success then est else 0)) := by
  constructor
  · induction calls generalizing g with
    | nil => intro x hx; cases hx
    | cons c rest ih =>
        intro x hx
        rcases List.mem_cons.mp hx with hx | hx
        · subst hx
          intro hnone
          by_cases hover : g.currentMinuteTokens + c.2.1 > TOKEN_CEILING
          · simp [reserveTokens, hover] at hnone
          · have hle : g.currentMinuteTokens + c.2.1 ≤ TOKEN_CEILING := Nat.le_of_not_lt hover
            cases hsucc : c.2.2 with
            | true =>
                simpa [reserveTokens, hover, hsucc] using hle
            | false =>
                simp only [reserveTokens, hover, if_false, hsucc]
                exact Nat.le_trans (Nat.le_add_right _ _) hle
        · exact ih _ x hx
  · intro now est success hover
    simp [reserveTokens, hover]

/-- C5 witness: the spec's scenario 3 with the real ceiling — 500000 then
500001 estimated tokens; the first call charges without waiting and stays at
or below the ceiling, the second forces a 59-second wait and a reset. -/
theorem tokenBudget_never_exceeded_witness :
    (500000 : Nat) ≤ TOKEN_CEILING ∧
    (reserveTokens ⟨500000, 0⟩ 1000 500001 true).1 = some 59000 ∧
    ((reserveTokens ⟨500000, 0⟩ 1000 500001 true).2).currentMinuteTokens = 500001 := by
  refine ⟨?_, ?_⟩
  · exact (tokenBudget_never_exceeded ⟨0, 0⟩ [(0, 500000, true)]).1
      (none, 500000) (by decide) rfl
  · have h := (tokenBudget_never_exceeded ⟨500000, 0⟩ []).2 1000 500001 true (by decide)
    simpa [WINDOW_MS] using h

/-!
Summary attachment (lines 322-354 of `updateFeed`).  The terminal outcome of
the retried, rate-limited remote call for each entry is abstracted as an
oracle: `ok text` when the retry stack eventually produced a summary, and
`failed` when retries were exhausted or the abort condition fired (the
`catch` of lines 347-350).
-/

/-- Terminal outcome of the retry/summarization stack for one entry. -/
inductive SummResult where
  | ok (text : String)
  | failed
  deriving DecidableEq, Repr

/-- The fallback string attached at line 349. -/
def FALLBACK_SUMMARY : String := "摘要生成失败（请稍后重试）"

/-- The loop of lines 322-354: each merged item is emitted unchanged unless it
is a new item (its link occurs in `newItemsForSummary`, line 324) with a falsy
summary, in which case the oracle's text — or, on terminal failure, the fixed
fallback string — is attached. -/
def attachSummaries (ns : List FeedItem) (oracle : FeedItem → SummResult) :
    List FeedItem → List FeedItem
  | [] => []
  | item :: rest =>
      (if (ns.any fun n => n.link == item.link) && !(truthyOptStr item.summary) then
        match oracle item with
        | .ok s => { item with summary := some s }
        | .failed => { item with summary := some FALLBACK_SUMMARY }
      else item) :: attachSummaries ns oracle rest

/-- C6: the summary loop never drops or reorders an entry (the per-source
update goes on), and every entry whose summarization terminally fails comes
out at its original position carrying exactly the fallback summary string. -/
theorem summarization_failure_fallback (ns : List FeedItem)
    (oracle : FeedItem → SummResult) (items : List FeedItem) :
    (attachSummaries ns oracle items).length = items.length ∧
    (∀ (i : Nat) (item : FeedItem), items.get? i = some item →
      (ns.any fun n => n.link == item.link) = true →
      truthyOptStr item.summary = false →
      oracle item = .failed →
      (attachSummaries ns oracle items).get? i =
        some { item with summary := some FALLBACK_SUMMARY }) := by
  constructor
  · induction items with
    | nil => rfl
    | cons hd tl ih => simpa [attachSummaries] using ih
  · induction items with
    | nil => intro i item h; cases h
    | cons hd tl ih =>
        intro i item hget hnew hfalsy hfail
        match i with
        | 0 =>
            cases hget
            simp [attachSummaries, hnew, hfalsy, hfail]
        | i'+1 =>
            simpa [attachSummaries] using ih i' item (by simpa using hget) hnew hfalsy hfail

/-- C6 witness: a new unsummarized entry whose generation fails is still in
the output, with the placeholder summary. -/
theorem summarization_failure_fallback_witness :
    (attachSummaries [mkItem "a" none] (fun _ => .failed) [mkItem "a" none]).get? 0 =
      some { mkItem "a" none with summary := some FALLBACK_SUMMARY } :=
  (summarization_failure_fallback [mkItem "a" none] (fun _ => .failed)
    [mkItem "a" none]).2 0 (mkItem "a" none) rfl (by decide) rfl rfl

/-!
Run-level driver (`updateAllFeeds`, lines 377-394, and `main`,
lines 397-406).  The per-source `updateFeed` call either succeeds or throws;
its outcome is abstracted as a boolean function of the source URL, because
the loop's `try`/`catch` only records that flag and continues.
-/

/-- `updateAllFeeds`: one flag per configured source, in order; a `false`
(the `catch` at lines 386-389) never stops the loop. -/
def updateAllFeeds (sources : List String) (updateResult : String → Bool) :
    List (String × Bool) :=
  match sources with
  | [] => []
  | url :: rest => (url, updateResult url) :: updateAllFeeds rest updateResult

/-- Outcome of the run-level driver as observed by `main`: either
`updateAllFeeds` ran to completion with its per-source results, or the driver
itself threw. -/
inductive RunOutcome where
  | completed (results : List (String × Bool))
  | driverError (msg : String)
  deriving DecidableEq, Repr

/-- The exit code chosen by `main` (lines 397-406): 0 after a completed run,
1 only when the driver threw. -/
def mainExitCode : RunOutcome → Nat
  | .completed _ => 0
  | .driverError _ => 1

/-- C8: every configured source is processed in order whatever the individual
outcomes are (one source's failure never halts the rest), the per-source flag
is recorded, a completed run exits with code 0 even if some sources failed,
and exit code 1 happens only for a driver-level error. -/
theorem updateAllFeeds_isolation_exit (sources : List String)
    (updateResult : String → Bool) :
    ((updateAllFeeds sources updateResult).map Prod.fst = sources) ∧
    (∀ url ∈ sources, (url, updateResult url) ∈ updateAllFeeds sources updateResult) ∧
    mainExitCode (.completed (updateAllFeeds sources updateResult)) = 0 ∧
    (∀ r : RunOutcome, mainExitCode r = 1 → ∃ msg, r = .driverError msg) := by
  refine ⟨?_, ?_, rfl, ?_⟩
  · induction sources with
    | nil => rfl
    | cons hd tl ih => simpa [updateAllFeeds] using ih
  · intro url hmem
    induction sources with
    | nil => cases hmem
    | cons hd tl ih =>
        rcases List.mem_cons.mp hmem with h | h
        · subst h
          exact List.mem_cons_self _ _
        · exact List.mem_cons_of_mem _ (ih h)
  · intro r hr
    cases r with
    | completed results => cases hr
    | driverError msg => exact ⟨msg, rfl⟩

/-- C8 witness: a run over two sources where the first fails still records
both flags and exits 0. -/
theorem updateAllFeeds_isolation_exit_witness :
    ("bad", false) ∈ updateAllFeeds ["bad", "good"] (fun url => url == "good") ∧
    mainExitCode (.completed (updateAllFeeds ["bad", "good"]
      (fun url => url == "good"))) = 0 :=
  ⟨by
    have h := (updateAllFeeds_isolation_exit ["bad", "good"] (fun url => url == "good")).2.1
      "bad" (by decide)
    simpa using h,
   (updateAllFeeds_isolation_exit ["bad", "good"] (fun url => url == "good")).2.2.1⟩

/-!
`loadFeedData` (lines 111-125).  The filesystem is abstracted as the state of
the per-source file, and `JSON.parse` as a partial parse function; both
`readFileSync` and `JSON.parse` throwing are routed through the `catch` at
lines 121-124, which returns `null`.
-/

/-- State of the persisted snapshot file for a source. -/
inductive FileState where
  | missing
  | unreadable
  | content (raw : String)
  deriving DecidableEq, Repr

/-- The persisted per-source document (`updatedData`, lines 357-364). -/
structure FeedData where
  sourceUrl : String
  title : String
  description : String
  link : String
  items : List FeedItem
  lastUpdated : String
  deriving DecidableEq, Repr

/-- `loadFeedData`: `null` when the file does not exist (line 116), and
`null` again when reading or parsing throws (lines 121-124). -/
def loadFeedData (file : FileState) (parseJson : String → Option FeedData) :
    Option FeedData :=
  match file with
  | .missing => none
  | .unreadable => none
  | .content raw => parseJson raw

/-- `existingData?.items || []` (line 314). -/
def itemsOf : Option FeedData → List FeedItem
  | none => []
  | some d => d.items

/-- C10: `loadFeedData` returns `null` when the file is missing, unreadable,
or fails to parse; any such `null` makes the cycle merge against the empty
previous-item list, exactly as on a first run — and (for duplicate-free fresh
links) every link-bearing fetched entry is then classified as new. -/
theorem loadFeedData_corruption_resilient (parseJson : String → Option FeedData)
    (raw : String) (newItems : List FeedItem) (maxItems : Nat) :
    loadFeedData .missing parseJson = none ∧
    loadFeedData .unreadable parseJson = none ∧
    (parseJson raw = none → loadFeedData (.content raw) parseJson = none) ∧
    (∀ file : FileState, loadFeedData file parseJson = none →
      mergeFeedItems (itemsOf (loadFeedData file parseJson)) newItems maxItems =
        mergeFeedItems [] newItems maxItems) ∧
    (((newItems.filter fun it => truthyStr it.link).map FeedItem.link).Nodup →
      (mergeFeedItems [] newItems maxItems).2 =
        newItems.filter fun it => truthyStr it.link) := by
  refine ⟨rfl, rfl, ?_, ?_, ?_⟩
  · intro h
    simpa [loadFeedData] using h
  · intro file hnone
    rw [hnone]
    rfl
  · intro hnd
    show (addNewItems (addOldItems [] []) [] newItems).2 = _
    have h := addNewItems_acc_of_not_has newItems hnd (addOldItems [] []) []
      (by intro item _ _; rfl)
    simpa using h

/-- C10 witness: a file whose contents do not parse behaves exactly like a
missing file — the single fetched entry is treated as new. -/
theorem loadFeedData_corruption_resilient_witness :
    loadFeedData (.content "not json") (fun _ => none) = none ∧
    (mergeFeedItems [] [mkItem "a" none] 10).2 = [mkItem "a" none] :=
  ⟨(loadFeedData_corruption_resilient (fun _ => none) "not json" [mkItem "a" none] 10).2.2.1
    rfl,
   by
    have h := (loadFeedData_corruption_resilient (fun _ => none) "not json"
      [mkItem "a" none] 10).2.2.2.2 (by decide)
    simpa using h⟩

end FeedMe
